import Mathlib

/-!
Verification of the saxpy3 sparse matrix-matrix multiply scheduler of
SuiteSparse:GraphBLAS (`Source/GB_AxB_saxpy3.c`), against its natural-language
specification.

Conventions of the shallow embedding:

* C `int64_t` quantities (flop counts, sizes, indices) are modelled as `ℕ`
  (they are nonnegative at every modelled site) or `ℤ` where a difference can
  be negative.
* C `double` quantities appear in the source only in comparisons against
  integer-valued flop counts, scaled by the decimal constants
  `GB_COSTLY = 1.2`, `GB_MWORK_ALPHA = 0.01`, `GB_MWORK_BETA = 0.10`, and in
  the quantities `target_task_size`/`target_fine_size`/`chunk`.  Integers
  below 2^53 are exact in `double`, so every such comparison is modelled as an
  exact integer comparison after clearing denominators; `target_task_size`,
  `target_fine_size` and `chunk` are modelled as exact nonnegative fractions
  (`GBFrac`).  The decimal constants are modelled by their exact decimal
  values.
* `floor(log2(x))` computed via C `double` arithmetic is exact for the integer
  ranges reachable here; it is modelled by a fuel-based binary logarithm
  `floorLog2` (kernel-computable, unlike `Nat.log2`).
-/

namespace GB

/-- GrB_Desc_Value restricted to the values consulted by GB_AxB_saxpy3:
the method selector for C=A*B. -/

inductive DescValue : Type where
  | GxB_DEFAULT : DescValue
  | GxB_AxB_GUSTAVSON : DescValue
  | GxB_AxB_HASH : DescValue
  | GxB_AxB_SAXPY : DescValue
  | GxB_AxB_DOT : DescValue
deriving DecidableEq

/-- Fuel-based floor of the base-2 logarithm; `floorLog2 n = ⌊log2 n⌋` for
`n ≥ 1`, and `floorLog2 0 = 0`.  Models the C expression
`(int64_t) floor (log2 ((double) flmax))`. -/

def floorLog2Aux : ℕ → ℕ → ℕ
  | 0, _ => 0
  | fuel+1, n => if n < 2 then 0 else floorLog2Aux fuel (n / 2) + 1

/-- Floor of log2, total on ℕ. -/

def floorLog2 (n : ℕ) : ℕ := floorLog2Aux n n

/-- Smallest power of two strictly greater than `n` (for `n ≥ 1`). -/

def strictPow2Gt (n : ℕ) : ℕ := 2 ^ (floorLog2 n + 1)

/-- Smallest power of two greater than or equal to `n` (the usual
`next_power_of_two`). -/

def nextPow2 (n : ℕ) : ℕ := if n ≤ 1 then 1 else 2 ^ (floorLog2 (n - 1) + 1)

/-- GB_hash_table_size (Source/GB_AxB_saxpy3.c, lines 152-186): the hash table
size for a task is `2 << (floor(log2 flmax) + 1)`, i.e. `2 ^ (⌊log2 flmax⌋ + 2)`;
Gustavson's method (returning `cvlen`) is selected if the method hint forces it,
or if the hint is Hash and `hash_size ≥ cvlen`, or by default if
`hash_size ≥ cvlen/16` (C integer division). -/

def GB_hash_table_size (flmax cvlen : ℕ) (AxB_method : DescValue) : ℕ :=
  let hash_size := 2 ^ (floorLog2 flmax + 2)
  let use_Gustavson :=
    match AxB_method with
    | .GxB_AxB_GUSTAVSON => true
    | .GxB_AxB_HASH => decide (cvlen ≤ hash_size)
    | _ => decide (cvlen / 16 ≤ hash_size)
  if use_Gustavson then cvlen else hash_size

/-- Condition under which GB_hash_table_size selects Gustavson's method,
phrased with the corrected hash size `2 * strictPow2Gt flmax`. -/

def useGustavsonCond (flmax cvlen : ℕ) (m : DescValue) : Prop :=
  m = DescValue.GxB_AxB_GUSTAVSON ∨
  (m = DescValue.GxB_AxB_HASH ∧ cvlen ≤ 2 * strictPow2Gt flmax) ∨
  (m ≠ DescValue.GxB_AxB_GUSTAVSON ∧ m ≠ DescValue.GxB_AxB_HASH ∧
    cvlen / 16 ≤ 2 * strictPow2Gt flmax)

instance (flmax cvlen : ℕ) (m : DescValue) :
    Decidable (useGustavsonCond flmax cvlen m) := by
  unfold useGustavsonCond
  infer_instance

/-! ## Task partitioner (phase0 of GB_AxB_saxpy3, lines 612-876) -/

/-- Exact nonnegative fraction `n / d` (with `d > 0` where used), modelling the
C `double` quantities `target_task_size`, `target_fine_size` and `chunk`,
which are exact rationals. -/

structure GBFrac where
  n : ℕ
  d : ℕ
deriving DecidableEq

/-- Comparison `a ≤ b` on fractions by clearing denominators. -/

def fracLe (a b : GBFrac) : Prop := a.n * b.d ≤ b.n * a.d

/-- Comparison `m ≤ q` of a natural against a fraction. -/

def natLeFrac (m : ℕ) (q : GBFrac) : Prop := m * q.d ≤ q.n

/-- The strict comparison `fl > GB_COSTLY * q` with `GB_COSTLY = 1.2`,
cleared of denominators: `10 * q.d * fl > 12 * q.n`. -/

def gtCostly (fl : ℕ) (q : GBFrac) : Prop := 12 * q.n < 10 * q.d * fl

/-- The strict comparison `fl > 2 * GB_COSTLY * q`, cleared of
denominators. -/

def gtTwiceCostly (fl : ℕ) (q : GBFrac) : Prop := 24 * q.n < 10 * q.d * fl

instance (fl : ℕ) (q : GBFrac) : Decidable (gtCostly fl q) := by
  unfold gtCostly
  infer_instance

instance (fl : ℕ) (q : GBFrac) : Decidable (gtTwiceCostly fl q) := by
  unfold gtTwiceCostly
  infer_instance

/-- Ceiling of `fl / q` for a fraction `q = n/d`, i.e. `⌈fl*d / n⌉`, as used by
`team_size = ceil (jflops / target_fine_size)`. -/

def ceilDivFrac (fl : ℕ) (q : GBFrac) : ℕ := (fl * q.d + q.n - 1) / q.n

/-- Task descriptor GB_saxpy3task_struct.  A coarse task covers output vectors
`start..end_` and has `vector = none` (the C sentinel -1); a fine task covers
positions `start..end_` of one vector `kk` of B and has `vector = some kk`.
The workspace pointers `Hi`/`Hf`/`Hx`, the scratch counter `my_cjnz` and the
task-id field `leader` (bound only later, during workspace allocation) are not
part of the partitioning model. -/

structure GB_saxpy3task_struct where
  start : ℕ
  end_ : ℕ
  vector : Option ℕ
  hsize : ℕ
  flops : ℕ
  team_size : ℕ
deriving DecidableEq

/-- Maximum flop count over the vectors `kfirst..klast` (inclusive) of a coarse
task, clamped to at least 1: models the parallel reduction in
GB_create_coarse_task, whose per-thread accumulators start at `my_flmax = 1`
and whose combination starts at `flmax = 1`. -/

def coarseFlmax (Bflops : ℕ → ℕ) (kfirst klast : ℕ) : ℕ :=
  (List.range' kfirst (klast + 1 - kfirst)).foldl
    (fun acc kk => max acc (Bflops (kk+1) - Bflops kk)) 1

/-- GB_create_coarse_task (lines 195-259): construct the coarse task for
vectors `kfirst..klast` (inclusive). -/

def GB_create_coarse_task (Bflops : ℕ → ℕ) (cvlen : ℕ) (m : DescValue)
    (kfirst klast : ℕ) : GB_saxpy3task_struct :=
  { start := kfirst
    end_ := klast
    vector := none
    hsize := GB_hash_table_size (coarseFlmax Bflops kfirst klast) cvlen m
    flops := Bflops (klast + 1) - Bflops kfirst
    team_size := 1 }

/-- Inputs consumed by the per-chunk partitioning loop.  `Bflops` is the
cumulative flop-count array produced by the flop estimator; `Bp` is B's
column-pointer array (`none` when B is bitmap or full, in which case every
column has `bvlen` held entries and starts at `kk * bvlen`, as in the GBP/GBI
macros); `ef kk s` is the per-entry flop estimate for the `s`-th entry of
`B(:,kk)` (the length of the corresponding column of A, found by GB_lookup). -/

structure ChunkCtx where
  Bflops : ℕ → ℕ
  Bp : Option (ℕ → ℕ)
  bvlen : ℕ
  cvlen : ℕ
  ef : ℕ → ℕ → ℕ
  tts : GBFrac
  tfs : GBFrac
  method : DescValue

/-- Flop count `Bflops [kk+1] - Bflops [kk]` of vector `kk`. -/

def jflopsOf (c : ChunkCtx) (kk : ℕ) : ℕ := c.Bflops (kk+1) - c.Bflops kk

/-- Number of held entries `bjnz` of `B(:,kk)`. -/

def bjnzOf (c : ChunkCtx) (kk : ℕ) : ℕ :=
  match c.Bp with
  | some p => p (kk+1) - p kk
  | none => c.bvlen

/-- Position of the first entry of `B(:,kk)` (the GBP macro). -/

def pBstartOf (c : ChunkCtx) (kk : ℕ) : ℕ :=
  match c.Bp with
  | some p => p kk
  | none => kk * c.bvlen

/-- Vector `kk` is split into fine tasks when its flop estimate exceeds
`GB_COSTLY * target_task_size` and it has more than one entry in B. -/

def splitCol (c : ChunkCtx) (kk : ℕ) : Prop :=
  gtCostly (jflopsOf c kk) c.tts ∧ 1 < bjnzOf c kk

instance (c : ChunkCtx) (kk : ℕ) : Decidable (splitCol c kk) := by
  unfold splitCol
  infer_instance

/-- Modelled from the spec: `GB_pslice` (whose source file is not part of this
repository snapshot) partitions `0..n` into `ntasks` contiguous ranges
balanced by the cumulative work array `W` (with `W 0 = 0` and `W n` the total
work): boundary `t` is the least `k ≤ n` with `ntasks * W k ≥ t * W n`. -/

def psliceModel (W : ℕ → ℕ) (n ntasks t : ℕ) : ℕ :=
  ((List.range (n+1)).find? (fun k => decide (t * W n ≤ ntasks * W k))).getD n

/-- Cumulative sum `Bflops2` of the per-entry flop estimates of `B(:,kk)`
(GB_cumsum over the parallel per-entry counts). -/

def bflops2Of (c : ChunkCtx) (kk s : ℕ) : ℕ := ((List.range s).map (c.ef kk)).sum

/-- Number of fine tasks in the team for vector `kk`:
`ceil (jflops / target_fine_size)`. -/

def teamSizeOf (c : ChunkCtx) (kk : ℕ) : ℕ := ceilDivFrac (jflopsOf c kk) c.tfs

/-- Boundary `fid` of the balanced sub-partition of the entries of `B(:,kk)`
among the team's fine tasks (GB_pslice on Bflops2). -/

def fineSliceOf (c : ChunkCtx) (kk fid : ℕ) : ℕ :=
  psliceModel (bflops2Of c kk) (bjnzOf c kk) (teamSizeOf c kk) fid

/-- The team of fine tasks for the costly vector `kk` (lines 816-835). -/

def fineTeam (c : ChunkCtx) (kk : ℕ) : List GB_saxpy3task_struct :=
  (List.range (teamSizeOf c kk)).map fun fid =>
    { start := pBstartOf c kk + fineSliceOf c kk fid
      end_ := pBstartOf c kk + fineSliceOf c kk (fid+1) - 1
      vector := some kk
      hsize := GB_hash_table_size (jflopsOf c kk) c.cvlen c.method
      flops := bflops2Of c kk (fineSliceOf c kk (fid+1)) -
        bflops2Of c kk (fineSliceOf c kk fid)
      team_size := teamSizeOf c kk }

/-- Flush the pending coarse task over vectors `ks..kk-1`, if nonempty. -/

def flushCoarse (c : ChunkCtx) (ks kk : ℕ) : List GB_saxpy3task_struct :=
  if ks < kk then [GB_create_coarse_task c.Bflops c.cvlen c.method ks (kk - 1)]
  else []

/-- The column scan of a costly initial coarse chunk (lines 756-846): `ks` is
`kcoarse_start`, the remaining columns to scan are passed as an explicit list
(`range' kk (klast-kk)` at every call), and `klast` bounds the final flush. -/

def scanChunk (c : ChunkCtx) (klast : ℕ) : ℕ → List ℕ → List GB_saxpy3task_struct
  | ks, [] => flushCoarse c ks klast
  | ks, kk :: rest =>
      if splitCol c kk then
        flushCoarse c ks kk ++ fineTeam c kk ++ scanChunk c klast (kk+1) rest
      else scanChunk c klast ks rest

/-- Tasks produced from one initial coarse chunk `[kfirst, klast)` (lines
737-855): an empty chunk yields nothing; a chunk whose flops exceed
`2 * GB_COSTLY * target_task_size` is decomposed by the column scan; otherwise
the chunk becomes a single coarse task as-is. -/

def chunkTasks (c : ChunkCtx) (kfirst klast : ℕ) : List GB_saxpy3task_struct :=
  if klast - kfirst = 0 then []
  else if gtTwiceCostly (c.Bflops klast - c.Bflops kfirst) c.tts then
    scanChunk c klast kfirst (List.range' kfirst (klast - kfirst))
  else [GB_create_coarse_task c.Bflops c.cvlen c.method kfirst (klast - 1)]

/-- Specification of the tasks produced from one initial coarse chunk
`[kfirst, klast)` of the partitioner: (1) a chunk squeezed to zero columns
produces no task; (2) a chunk whose flop count does not exceed
`2 * GB_COSTLY * target_task_size` is kept whole as one coarse task;
(3) otherwise the chunk is decomposed: a column `j` receives fine tasks
exactly when its flop estimate exceeds `GB_COSTLY * target_task_size` and it
has more than one entry in B, in which case its fine team has
`ceil (jflops / target_fine_size)` members whose ranges over the column's
entries come from the balanced per-entry flop sub-partition, while every
remaining column is covered by a coarse task, and every coarse task covers
only contiguous in-chunk columns that are not split. -/

def chunkTasksSpec (c : ChunkCtx) (kfirst klast : ℕ) : Prop :=
  (klast - kfirst = 0 → chunkTasks c kfirst klast = []) ∧
  (0 < klast - kfirst →
    ¬ gtTwiceCostly (c.Bflops klast - c.Bflops kfirst) c.tts →
    chunkTasks c kfirst klast =
      [GB_create_coarse_task c.Bflops c.cvlen c.method kfirst (klast - 1)]) ∧
  (0 < klast - kfirst →
    gtTwiceCostly (c.Bflops klast - c.Bflops kfirst) c.tts →
    (∀ j, (chunkTasks c kfirst klast).filter (fun t => decide (t.vector = some j)) =
        if kfirst ≤ j ∧ j < klast ∧ splitCol c j then fineTeam c j else []) ∧
    (∀ j, splitCol c j →
      (fineTeam c j).length = ceilDivFrac (jflopsOf c j) c.tfs ∧
      ∀ t ∈ fineTeam c j, ∃ fid, fid < teamSizeOf c j ∧
        t.start = pBstartOf c j + fineSliceOf c j fid ∧
        t.end_ = pBstartOf c j + fineSliceOf c j (fid + 1) - 1 ∧
        t.flops = bflops2Of c j (fineSliceOf c j (fid + 1)) -
          bflops2Of c j (fineSliceOf c j fid) ∧
        t.team_size = teamSizeOf c j) ∧
    (∀ kk, kfirst ≤ kk → kk < klast → ¬ splitCol c kk →
      ∃ t ∈ chunkTasks c kfirst klast,
        t.vector = none ∧ t.start ≤ kk ∧ kk ≤ t.end_) ∧
    (∀ t ∈ chunkTasks c kfirst klast, t.vector = none →
      kfirst ≤ t.start ∧ t.start ≤ t.end_ ∧ t.end_ < klast ∧
      ∀ kk, t.start ≤ kk → kk ≤ t.end_ → ¬ splitCol c kk))

/-- Concrete partitioner inputs used by the witnesses: two columns, the first
cheap (1 flop), the second costly (9 flops, 2 entries in B), with
target_task_size 4 and target_fine_size 2. -/

def witnessCtx : ChunkCtx :=
  { Bflops := fun k => if k = 0 then 0 else if k = 1 then 1 else 10
    Bp := some (fun k => 2 * k)
    bvlen := 5
    cvlen := 100
    ef := fun _ _ => 1
    tts := ⟨4, 1⟩
    tfs := ⟨2, 1⟩
    method := DescValue.GxB_DEFAULT }

/-- Per-vector flop bound of a task: for a coarse task, the clamped maximum
flop count over its vectors (the `flmax` passed to GB_hash_table_size); for a
fine task, the flop count of its whole column (whose team shares one table
sized from it). -/

def taskVecBound (c : ChunkCtx) (t : GB_saxpy3task_struct) : ℕ :=
  match t.vector with
  | none => coarseFlmax c.Bflops t.start t.end_
  | some kk => jflopsOf c kk

/-- Invariant claimed for every task's hash size: either `cvlen` (Gustavson),
or a power of two below `cvlen` that is at least twice the smallest power of
two ≥ the task's per-vector flop bound (hence at least twice the bound itself,
so occupancy stays at or below 50%). -/

def taskHsizeSpec (c : ChunkCtx) (t : GB_saxpy3task_struct) : Prop :=
  t.hsize = c.cvlen ∨
  ((∃ k : ℕ, t.hsize = 2 ^ k) ∧ t.hsize < c.cvlen ∧
    2 * nextPow2 (taskVecBound c t) ≤ t.hsize ∧ 2 * taskVecBound c t ≤ t.hsize)

/-! ## Mask-economy decision (GB_AxB_saxpy3, lines 496-570) -/

/-- Outcome of the decision whether the mask M is applied during `A*B`:
whether M is kept, the (possibly cleared) complement flag, whether a dense M
is used in place, the (possibly forced) method, whether the flop analysis is
redone without the mask on zeroed Bflops, whether the per-column mask-scan
cost is added to Bflops, the value reported in `*mask_applied`, and the
updated `Mwork`. -/

structure MaskDecision where
  M_kept : Bool
  Mask_comp : Bool
  M_dense_in_place : Bool
  AxB_method : DescValue
  recompute_flops : Bool
  add_mask_work : Bool
  apply_mask : Bool
  Mwork : ℕ
deriving DecidableEq

/-- Mask-economy decision of GB_AxB_saxpy3.  All `double` comparisons are
modelled exactly: `axbflops < Mwork * 0.01` becomes `100*axbflops < Mwork` and
`axbflops < Mwork * 0.10` becomes `10*axbflops < Mwork`, over `ℤ` since
`axbflops = total_flops - Mwork` may be negative.  A missing mask is never
packed, so `M_packed` implies `M_present`.  The dense branch is taken only
when the method hint is GxB_DEFAULT or GxB_AxB_SAXPY; there `Mwork` is first
reassigned to `cvlen * cvdim` and the BETA test compares against the
reassigned value. -/

def maskDecision (M_present M_packed Mask_comp : Bool) (method : DescValue)
    (total_flops Mwork cvlen cvdim : ℕ) : MaskDecision :=
  let axbflops : ℤ := (total_flops : ℤ) - (Mwork : ℤ)
  if M_present = true ∧ M_packed = true ∧
      (method = DescValue.GxB_DEFAULT ∨ method = DescValue.GxB_AxB_SAXPY) then
    let Mwork2 := cvlen * cvdim
    if 10 * axbflops < (Mwork2 : ℤ) then
      { M_kept := true, Mask_comp := Mask_comp, M_dense_in_place := true,
        AxB_method := DescValue.GxB_AxB_HASH, recompute_flops := false,
        add_mask_work := false, apply_mask := true, Mwork := Mwork2 }
    else
      { M_kept := true, Mask_comp := Mask_comp, M_dense_in_place := false,
        AxB_method := DescValue.GxB_AxB_GUSTAVSON, recompute_flops := false,
        add_mask_work := true, apply_mask := true, Mwork := Mwork2 }
  else if M_present = true ∧ 100 * axbflops < (Mwork : ℤ) then
    { M_kept := false, Mask_comp := false, M_dense_in_place := false,
      AxB_method := method, recompute_flops := true, add_mask_work := false,
      apply_mask := false, Mwork := Mwork }
  else
    { M_kept := M_present, Mask_comp := Mask_comp, M_dense_in_place := false,
      AxB_method := method, recompute_flops := false, add_mask_work := false,
      apply_mask := M_present, Mwork := Mwork }

/-- Specification of the corrected mask-economy decision, with the dense
branch gated on the method hint being GxB_DEFAULT or GxB_AxB_SAXPY. -/

def maskDecisionSpec (M_present M_packed Mask_comp : Bool) (method : DescValue)
    (total_flops Mwork cvlen cvdim : ℕ) : Prop :=
  let d := maskDecision M_present M_packed Mask_comp method total_flops Mwork
    cvlen cvdim
  let axbflops : ℤ := (total_flops : ℤ) - (Mwork : ℤ)
  let densePath : Prop := M_present = true ∧ M_packed = true ∧
    (method = DescValue.GxB_DEFAULT ∨ method = DescValue.GxB_AxB_SAXPY)
  (densePath → 10 * axbflops < ((cvlen * cvdim : ℕ) : ℤ) →
    d = { M_kept := true, Mask_comp := Mask_comp, M_dense_in_place := true,
          AxB_method := DescValue.GxB_AxB_HASH, recompute_flops := false,
          add_mask_work := false, apply_mask := true, Mwork := cvlen * cvdim }) ∧
  (densePath → ¬ (10 * axbflops < ((cvlen * cvdim : ℕ) : ℤ)) →
    d = { M_kept := true, Mask_comp := Mask_comp, M_dense_in_place := false,
          AxB_method := DescValue.GxB_AxB_GUSTAVSON, recompute_flops := false,
          add_mask_work := true, apply_mask := true, Mwork := cvlen * cvdim }) ∧
  (¬ densePath → M_present = true → 100 * axbflops < (Mwork : ℤ) →
    d = { M_kept := false, Mask_comp := false, M_dense_in_place := false,
          AxB_method := method, recompute_flops := true, add_mask_work := false,
          apply_mask := false, Mwork := Mwork }) ∧
  (¬ densePath → M_present = true → ¬ (100 * axbflops < (Mwork : ℤ)) →
    d = { M_kept := true, Mask_comp := Mask_comp, M_dense_in_place := false,
          AxB_method := method, recompute_flops := false, add_mask_work := false,
          apply_mask := true, Mwork := Mwork }) ∧
  (M_present = false →
    d = { M_kept := false, Mask_comp := Mask_comp, M_dense_in_place := false,
          AxB_method := method, recompute_flops := false, add_mask_work := false,
          apply_mask := false, Mwork := Mwork })

/-! ## Numeric kernel semantics (symbolic + numeric phases)

The saxpy3 symbolic and numeric template kernels (GB_AxB_saxpy3_symbolic and
the GB_AxB_saxpy3_template workers) are not part of this repository snapshot;
the following definitions model them from the spec.  A sparse matrix is an
entry function `ℕ → ℕ → Option α` together with its dimensions; a stored CSC
column is the list of its present entries in ascending row order. -/

/-- Modelled from the spec: the stored column of a sparse vector `f` of length
`m` — the (index, value) pairs of the present entries, in ascending index
order. -/

def colList {α : Type} (m : ℕ) (f : ℕ → Option α) : List (ℕ × α) :=
  (List.range m).filterMap fun i => (f i).map fun a => (i, a)

/-- Modelled from the spec: one multiply-accumulate into the workspace slot of
row `i` (`GB_HX_WRITE` on first touch, `GB_HX_UPDATE` with the monoid add
afterwards). -/

def hxUpdate {α : Type} (add : α → α → α) (acc : ℕ → Option α) (i : ℕ)
    (v : α) : ℕ → Option α :=
  fun i2 => if i2 = i then
    some (match acc i with
          | none => v
          | some w => add w v)
  else acc i2

/-- Modelled from the spec: scatter `A(:,k) * b` into the accumulator, row by
row, suppressing rows the mask disallows (`allow`); the unmasked kernels use
`allow = fun _ => true`. -/

def scatterOne {α : Type} (add mult : α → α → α) (allow : ℕ → Bool)
    (Acolk : List (ℕ × α)) (b : α) (acc : ℕ → Option α) : ℕ → Option α :=
  Acolk.foldl
    (fun ac p => if allow p.1 then hxUpdate add ac p.1 (mult p.2 b) else ac) acc

/-- Modelled from the spec: the saxpy accumulation of one output column —
for each entry `B(k,j)` in order, scatter `A(:,k) * B(k,j)` into the shared
accumulator. -/

def scatterCol {α : Type} (add mult : α → α → α) (allow : ℕ → Bool) (m : ℕ)
    (A : ℕ → ℕ → Option α) (Bj : List (ℕ × α)) : ℕ → Option α :=
  Bj.foldl
    (fun ac p => scatterOne add mult allow (colList m fun i => A i p.1) p.2 ac)
    (fun _ => none)

/-- Modelled from the spec: the gather step, reading the accumulator back out
in ascending row order. -/

def gatherCol {α : Type} (m : ℕ) (acc : ℕ → Option α) : List (ℕ × α) :=
  colList m acc

/-- Modelled from the spec: output column `j` of `C = A*B` as computed by the
saxpy3 kernels (scatter then ordered gather), unmasked. -/

def saxpyColumn {α : Type} (add mult : α → α → α) (m kdim : ℕ)
    (A B : ℕ → ℕ → Option α) (j : ℕ) : List (ℕ × α) :=
  gatherCol m (scatterCol add mult (fun _ => true) m A (colList kdim fun k => B k j))

/-- Modelled from the spec: all columns of `C = A*B` (A is m×kdim, B is
kdim×n). -/

def saxpyMat {α : Type} (add mult : α → α → α) (m kdim n : ℕ)
    (A B : ℕ → ℕ → Option α) : List (List (ℕ × α)) :=
  (List.range n).map (saxpyColumn add mult m kdim A B)

/-- Fold one more contribution into an optional accumulated value: the first
contribution is written, later ones are added with the monoid. -/

def combine {α : Type} (add : α → α → α) : Option α → α → Option α
  | none, c => some c
  | some w, c => some (add w c)

/-- The naive reference: the contributions `mult (A i t) (B t j)` over exactly
those `t < kdim` where both entries are present, in ascending `t` order. -/

def naiveContribs {α : Type} (mult : α → α → α) (kdim : ℕ)
    (A B : ℕ → ℕ → Option α) (i j : ℕ) : List α :=
  (List.range kdim).filterMap fun t =>
    (A i t).bind fun a => (B t j).map fun b => mult a b

/-- The naive triple-loop reference entry: the monoid fold of the
contributions, absent when there are none. -/

def naiveEntry {α : Type} (add mult : α → α → α) (kdim : ℕ)
    (A B : ℕ → ℕ → Option α) (i j : ℕ) : Option α :=
  (naiveContribs mult kdim A B i j).foldl (combine add) none

/-- Total number of stored entries of a column list. -/

def nnzOf {α : Type} (cols : List (List (ℕ × α))) : ℕ :=
  (cols.map List.length).sum

/-- Concrete scenario matrix A: 3×3 diagonal {(0,0):2, (1,1):3, (2,2):4}. -/

def exampleA : ℕ → ℕ → Option ℕ :=
  fun i k => if i = k ∧ i < 3 then some (2 + i) else none

/-- Concrete scenario matrix B: 3×3 diagonal {(0,0):5, (1,1):6, (2,2):7}. -/

def exampleB : ℕ → ℕ → Option ℕ :=
  fun k j => if k = j ∧ k < 3 then some (5 + k) else none

/-! ## Finalized output (C6): column pointers and row order -/

/-- Modelled from the spec: the gather of a Hash-method task must sort the
collected entries into ascending row order, since open addressing scrambles
them; modelled as an insertion sort on the row index. -/

def hashGather {α : Type} (col : List (ℕ × α)) : List (ℕ × α) :=
  List.insertionSort (fun p q : ℕ × α => p.1 ≤ q.1) col

/-- Modelled from the spec: the finalized columns of C — a Hash-method
column (stored in whatever order the open-addressing table yielded it) is
sorted by the gather step, a Gustavson column is already emitted in ascending
row order. -/

def finalizeColumns {α : Type} (useHash : ℕ → Bool) (perCols : ℕ → List (ℕ × α))
    (n : ℕ) : List (List (ℕ × α)) :=
  (List.range n).map fun j => if useHash j then hashGather (perCols j) else perCols j

/-- Modelled from the spec: the column-pointer array Cp of C, the prefix sums
of the per-column entry counts. -/

def finalCp {α : Type} (cols : List (List (ℕ × α))) : List ℕ :=
  List.scanl (fun a col => a + col.length) 0 cols

/-! ## Dispatch tiers and error statuses (C7, C8, C10) -/

/-- GrB_Info values relevant to GB_AxB_saxpy3. -/

inductive GrB_Info : Type where
  | GrB_SUCCESS : GrB_Info
  | GrB_NO_VALUE : GrB_Info
  | GrB_OUT_OF_MEMORY : GrB_Info
  | GrB_INVALID_VALUE : GrB_Info
  | GrB_PANIC : GrB_Info
deriving DecidableEq

/-- Modelled from the spec: a specialized switch-factory kernel
(e.g. GB_Asaxpy3B__max_isge_uint8): when disabled via GB_DISABLE it returns
GrB_NO_VALUE without touching C; otherwise it computes the semantically
determined result `r` (the tiers are semantically interchangeable). -/

def trySpecialized {R : Type} (disabled : Bool) (r : R) : GrB_Info × Option R :=
  if disabled then (GrB_Info.GrB_NO_VALUE, none)
  else (GrB_Info.GrB_SUCCESS, some r)

/-- Modelled from the spec: the generic fallback GB_AxB_saxpy3_generic, which
handles every operator/type combination and computes the same result `r`. -/

def tryGeneric {R : Type} (r : R) : GrB_Info × R := (GrB_Info.GrB_SUCCESS, r)

/-- Dispatch tail of GB_AxB_saxpy3 (lines 1135-1175): if the semiring is
builtin, the switch factory is launched and `done = (info ≠ GrB_NO_VALUE)`;
when not done, the generic fallback runs. -/

def saxpy3DispatchTail {R : Type} (builtin disabled : Bool) (r : R) :
    GrB_Info × R :=
  let s := if builtin then trySpecialized disabled r
           else (GrB_Info.GrB_NO_VALUE, none)
  if s.1 = GrB_Info.GrB_NO_VALUE then tryGeneric r
  else (s.1, s.2.getD (tryGeneric r).2)

/-- Allocation and subcall outcomes of one GB_AxB_saxpy3 call.  The Bool
fields record whether the corresponding allocation or subcall succeeds;
`GB_new` (the C header), `GB_AxB_saxpy3_flopcount` and `GB_hypermatrix_prune`
are modelled from the spec as failing only with out-of-memory.  `builtin`,
`specialized` and `generic` drive the compute tiers; the `multi_initial`,
`need_fine` and `need_H*` flags record which allocations are attempted
(`ntasks_initial > 1`, `max_bjnz > 0`, and the three hash-table size totals
being nonzero). -/

structure AllocOracle where
  C_new : Bool
  flopcount : Bool
  pslice : Bool
  TaskList : Bool
  Coarse_Work : Bool
  Fine_slice : Bool
  Bflops2 : Bool
  Hi : Bool
  Hf : Bool
  Hx : Bool
  prune : Bool
  builtin : Bool
  specialized : GrB_Info
  generic : GrB_Info
  multi_initial : Bool
  need_fine : Bool
  need_Hi : Bool
  need_Hf : Bool
  need_Hx : Bool
deriving DecidableEq

/-- Heap state of one call: which of the workspace blocks and the output
header are currently allocated. -/

structure SaxMem where
  Bflops2 : Bool
  Coarse_Work : Bool
  Coarse_initial : Bool
  Fine_slice : Bool
  TaskList : Bool
  Hi_all : Bool
  Hf_all : Bool
  Hx_all : Bool
  Chandle : Bool
deriving DecidableEq

/-- The state with nothing allocated and `*Chandle == NULL`. -/

def SaxMem.allFree : SaxMem :=
  { Bflops2 := false, Coarse_Work := false, Coarse_initial := false,
    Fine_slice := false, TaskList := false, Hi_all := false, Hf_all := false,
    Hx_all := false, Chandle := false }

/-- GB_FREE_INITIAL_WORK (lines 112-118). -/

def freeInitialWork (m : SaxMem) : SaxMem :=
  { m with
    Bflops2 := false
    Coarse_Work := false
    Coarse_initial := false
    Fine_slice := false }

/-- GB_FREE_WORK (lines 120-127). -/

def freeWork (m : SaxMem) : SaxMem :=
  { freeInitialWork m with
    TaskList := false
    Hi_all := false
    Hf_all := false
    Hx_all := false }

/-- GB_FREE_ALL (lines 129-133): free the workspace and the partially built
output matrix, leaving `*Chandle == NULL` (GB_Matrix_free, modelled from the
spec: the partially-built output matrix is discarded). -/

def freeAll (m : SaxMem) : SaxMem :=
  { freeWork m with Chandle := false }

/-- The status produced by the compute phase: the switch factory's status if
the semiring is builtin and it did not report GrB_NO_VALUE, else the generic
fallback's status. -/

def kernelInfo (o : AllocOracle) : GrB_Info :=
  if o.builtin = true ∧ o.specialized ≠ GrB_Info.GrB_NO_VALUE then o.specialized
  else o.generic

/-- Control flow of GB_AxB_saxpy3 restricted to allocation, freeing and
status propagation: each failure site frees everything allocated so far
(GB_FREE_ALL) and returns; a non-success status from the compute phase is
normalized to GrB_OUT_OF_MEMORY (lines 1177-1182); on success GB_FREE_WORK
runs and only C remains allocated. -/

def saxpy3Run (o : AllocOracle) : GrB_Info × SaxMem :=
  if o.C_new = false then (GrB_Info.GrB_OUT_OF_MEMORY, SaxMem.allFree)
  else
    let m1 : SaxMem := { SaxMem.allFree with Chandle := true }
    if o.flopcount = false then (GrB_Info.GrB_OUT_OF_MEMORY, freeAll m1)
    else if o.multi_initial = true ∧ o.pslice = false then
      (GrB_Info.GrB_OUT_OF_MEMORY, freeAll m1)
    else
      let m2 := { m1 with Coarse_initial := o.multi_initial }
      let m3 := { m2 with
                  TaskList := o.TaskList
                  Coarse_Work := o.Coarse_Work
                  Fine_slice := o.need_fine && o.Fine_slice
                  Bflops2 := o.need_fine && o.Bflops2 }
      if o.TaskList = false ∨ o.Coarse_Work = false ∨
          (o.need_fine = true ∧ (o.Fine_slice = false ∨ o.Bflops2 = false)) then
        (GrB_Info.GrB_OUT_OF_MEMORY, freeAll m3)
      else
        let m4 := freeInitialWork m3
        let m5 := { m4 with
                    Hi_all := o.need_Hi && o.Hi
                    Hf_all := o.need_Hf && o.Hf
                    Hx_all := o.need_Hx && o.Hx }
        if (o.need_Hi = true ∧ o.Hi = false) ∨ (o.need_Hf = true ∧ o.Hf = false)
            ∨ (o.need_Hx = true ∧ o.Hx = false) then
          (GrB_Info.GrB_OUT_OF_MEMORY, freeAll m5)
        else if kernelInfo o ≠ GrB_Info.GrB_SUCCESS then
          (GrB_Info.GrB_OUT_OF_MEMORY, freeAll m5)
        else
          let m6 := freeWork m5
          if o.prune = false then (GrB_Info.GrB_OUT_OF_MEMORY, freeAll m6)
          else (GrB_Info.GrB_SUCCESS, m6)

/-- All attempted allocations and subcalls succeed. -/

def allocsOk (o : AllocOracle) : Prop :=
  o.C_new = true ∧ o.flopcount = true ∧
  (o.multi_initial = true → o.pslice = true) ∧
  o.TaskList = true ∧ o.Coarse_Work = true ∧
  (o.need_fine = true → o.Fine_slice = true ∧ o.Bflops2 = true) ∧
  (o.need_Hi = true → o.Hi = true) ∧ (o.need_Hf = true → o.Hf = true) ∧
  (o.need_Hx = true → o.Hx = true)

instance (o : AllocOracle) : Decidable (allocsOk o) := by
  unfold allocsOk
  infer_instance

theorem floorLog2Aux_spec (fuel n : ℕ) (h1 : 1 ≤ n) (hf : n ≤ fuel) :
    2 ^ (floorLog2Aux fuel n) ≤ n ∧ n < 2 ^ (floorLog2Aux fuel n + 1) := by
  induction fuel generalizing n with
  | zero => omega
  | succ fuel ih =>
    by_cases h2 : n < 2
    · have hn : n = 1 := by omega
      simp [floorLog2Aux, h2, hn]
    · have hrec := ih (n / 2) (by omega) (by omega)
      simp only [floorLog2Aux, h2, if_false]
      constructor
      · calc 2 ^ (floorLog2Aux fuel (n / 2) + 1)
            = 2 * 2 ^ (floorLog2Aux fuel (n / 2)) := by ring
          _ ≤ 2 * (n / 2) := by omega
          _ ≤ n := by omega
      · have hlt : n / 2 < 2 ^ (floorLog2Aux fuel (n / 2) + 1) := hrec.2
        have : n < 2 ^ (floorLog2Aux fuel (n / 2) + 1 + 1) := by
          have h2n : n ≤ 2 * (n / 2) + 1 := by omega
          calc n ≤ 2 * (n / 2) + 1 := h2n
            _ < 2 * 2 ^ (floorLog2Aux fuel (n / 2) + 1) := by omega
            _ = 2 ^ (floorLog2Aux fuel (n / 2) + 1 + 1) := by ring
        exact this

theorem floorLog2_spec (n : ℕ) (h1 : 1 ≤ n) :
    2 ^ (floorLog2 n) ≤ n ∧ n < 2 ^ (floorLog2 n + 1) :=
  floorLog2Aux_spec n n h1 le_rfl

theorem strictPow2Gt_spec (n : ℕ) (h1 : 1 ≤ n) :
    n < strictPow2Gt n ∧ ∀ k : ℕ, n < 2 ^ k → strictPow2Gt n ≤ 2 ^ k := by
  obtain ⟨hle, hlt⟩ := floorLog2_spec n h1
  refine ⟨hlt, fun k hk => ?_⟩
  have : floorLog2 n + 1 ≤ k := by
    by_contra hc
    have hk1 : k ≤ floorLog2 n := by omega
    have : (2:ℕ) ^ k ≤ 2 ^ (floorLog2 n) := Nat.pow_le_pow_right (by norm_num) hk1
    omega
  exact Nat.pow_le_pow_right (by norm_num) this

theorem nextPow2_le_strictPow2Gt (n : ℕ) (h1 : 1 ≤ n) :
    n ≤ nextPow2 n ∧ nextPow2 n ≤ strictPow2Gt n := by
  unfold nextPow2
  by_cases h : n ≤ 1
  · have hn : n = 1 := by omega
    subst hn
    decide
  · simp only [h, if_false]
    obtain ⟨hle, hlt⟩ := floorLog2_spec (n - 1) (by omega)
    obtain ⟨hle2, hlt2⟩ := floorLog2_spec n h1
    have hmono : floorLog2 (n - 1) ≤ floorLog2 n := by
      by_contra hc
      have : floorLog2 n + 1 ≤ floorLog2 (n - 1) := by omega
      have := Nat.pow_le_pow_right (show 1 ≤ 2 by norm_num) this
      omega
    have hpow : (2:ℕ) ^ (floorLog2 (n - 1) + 1) ≤ 2 ^ (floorLog2 n + 1) :=
      Nat.pow_le_pow_right (by norm_num) (by omega)
    exact ⟨by omega, by unfold strictPow2Gt; omega⟩

theorem hash_size_as_strictPow2 (flmax : ℕ) :
    2 ^ (floorLog2 flmax + 2) = 2 * strictPow2Gt flmax := by
  unfold strictPow2Gt
  ring

/-- C2 counterexample: at `flmax = 4`, `cvlen = 1000`, hint Hash, the Hash
method is kept (the computed hash size 16 is below cvlen), yet the returned
hash size is 16, not `2 × next_power_of_two(4) = 8`: the code uses twice the
smallest power of two STRICTLY greater than flmax. -/
theorem claim_C2_counterexample :
    GB_hash_table_size 4 1000 DescValue.GxB_AxB_HASH = 16 ∧
    2 * nextPow2 4 = 8 ∧
    ¬ (1000 ≤ 2 * strictPow2Gt 4) := by decide

/-- C2 (amended): for every `flmax ≥ 1`, GB_hash_table_size returns
`2 × P` where `P` is the smallest power of two strictly greater than `flmax`,
when the Hash method is kept; and it returns `cvlen` (Gustavson) exactly when
the hint forces Gustavson, or the hint is Hash and the computed hash size is
`≥ cvlen`, or the hint is neither Gustavson nor Hash (the default case) and the
computed hash size is `≥ cvlen/16`. -/
theorem claim_C2_amended (flmax cvlen : ℕ) (m : DescValue) (h1 : 1 ≤ flmax) :
    ((∃ k : ℕ, strictPow2Gt flmax = 2 ^ k) ∧ flmax < strictPow2Gt flmax ∧
      (∀ k : ℕ, flmax < 2 ^ k → strictPow2Gt flmax ≤ 2 ^ k)) ∧
    (useGustavsonCond flmax cvlen m → GB_hash_table_size flmax cvlen m = cvlen) ∧
    (¬ useGustavsonCond flmax cvlen m →
      GB_hash_table_size flmax cvlen m = 2 * strictPow2Gt flmax) := by
  obtain ⟨hgt, hmin⟩ := strictPow2Gt_spec flmax h1
  refine ⟨⟨⟨floorLog2 flmax + 1, rfl⟩, hgt, hmin⟩, ?_, ?_⟩ <;>
    · intro hcond
      cases m <;>
        simp_all [GB_hash_table_size, useGustavsonCond, hash_size_as_strictPow2]

/-- C2 witness: the amended theorem applied at concrete inputs, covering both
the Gustavson outcome (flmax 5, cvlen 100, default hint: 100/16 = 6 ≤ 16) and
the Hash outcome (flmax 5, cvlen 1000, default hint: 1000/16 = 62 > 16). -/
theorem claim_C2_amended_witness :
    GB_hash_table_size 5 100 DescValue.GxB_DEFAULT = 100 ∧
    GB_hash_table_size 5 1000 DescValue.GxB_DEFAULT = 2 * strictPow2Gt 5 :=
  ⟨(claim_C2_amended 5 100 DescValue.GxB_DEFAULT (by decide)).2.1
      (Or.inr (Or.inr (by decide))),
   (claim_C2_amended 5 1000 DescValue.GxB_DEFAULT (by decide)).2.2
      (by decide)⟩

theorem fineTeam_vector (c : ChunkCtx) (kk : ℕ) :
    ∀ t ∈ fineTeam c kk, t.vector = some kk := by
  intro t ht
  simp only [fineTeam, List.mem_map, List.mem_range] at ht
  obtain ⟨fid, _, rfl⟩ := ht
  rfl

theorem flushCoarse_vector (c : ChunkCtx) (ks kk : ℕ) :
    ∀ t ∈ flushCoarse c ks kk, t.vector = none := by
  intro t ht
  unfold flushCoarse at ht
  by_cases h : ks < kk
  · simp only [h, if_true, List.mem_singleton] at ht
    subst ht
    rfl
  · simp [h] at ht

theorem flushCoarse_filter_fine (c : ChunkCtx) (ks kk j : ℕ) :
    (flushCoarse c ks kk).filter (fun t => decide (t.vector = some j)) = [] := by
  rw [List.filter_eq_nil_iff]
  intro t ht
  have := flushCoarse_vector c ks kk t ht
  simp [this]

theorem scanChunk_filter_fine (c : ChunkCtx) (klast j : ℕ) :
    ∀ (n cstart ks : ℕ),
    (scanChunk c klast ks (List.range' cstart n)).filter
        (fun t => decide (t.vector = some j)) =
      if cstart ≤ j ∧ j < cstart + n ∧ splitCol c j then fineTeam c j else [] := by
  intro n
  induction n with
  | zero =>
    intro cstart ks
    rw [if_neg (by omega)]
    simpa [scanChunk] using flushCoarse_filter_fine c ks klast j
  | succ n ih =>
    intro cstart ks
    rw [List.range'_succ]
    by_cases hs : splitCol c cstart
    · simp only [scanChunk, hs, if_true, List.filter_append]
      rw [flushCoarse_filter_fine, ih (cstart + 1) (cstart + 1)]
      by_cases hj : j = cstart
      · subst hj
        rw [List.filter_eq_self.mpr (by
          intro t ht
          simp [fineTeam_vector c j t ht])]
        rw [if_neg (fun hcon => absurd hcon.1 (by omega)),
          if_pos ⟨le_rfl, by omega, hs⟩]
        simp
      · rw [List.filter_eq_nil_iff.mpr (by
          intro t ht
          simp [fineTeam_vector c cstart t ht, Ne.symm hj])]
        by_cases hin : cstart + 1 ≤ j ∧ j < cstart + 1 + n ∧ splitCol c j
        · rw [if_pos hin, if_pos ⟨by omega, by omega, hin.2.2⟩]
          simp
        · rw [if_neg hin, if_neg (fun hcon =>
            hin ⟨by omega, by omega, hcon.2.2⟩)]
          simp
    · simp only [scanChunk, hs, if_false]
      rw [ih (cstart + 1) ks]
      by_cases hj : j = cstart
      · subst hj
        rw [if_neg (fun hcon => absurd hcon.1 (by omega)),
          if_neg (fun hcon => hs hcon.2.2)]
      · by_cases hin : cstart + 1 ≤ j ∧ j < cstart + 1 + n ∧ splitCol c j
        · rw [if_pos hin, if_pos ⟨by omega, by omega, hin.2.2⟩]
        · rw [if_neg hin, if_neg (fun hcon =>
            hin ⟨by omega, by omega, hcon.2.2⟩)]

theorem scanChunk_coarse_cover (c : ChunkCtx) (klast : ℕ) :
    ∀ (n cstart ks : ℕ), ks ≤ cstart → cstart + n = klast →
    ∀ kk, ks ≤ kk → kk < klast → (kk < cstart ∨ ¬ splitCol c kk) →
    ∃ t ∈ scanChunk c klast ks (List.range' cstart n),
      t.vector = none ∧ t.start ≤ kk ∧ kk ≤ t.end_ := by
  intro n
  induction n with
  | zero =>
    intro cstart ks hks heq kk hk1 hk2 _
    refine ⟨GB_create_coarse_task c.Bflops c.cvlen c.method ks (klast - 1), ?_, rfl, ?_, ?_⟩
    · simp only [scanChunk, flushCoarse]
      rw [if_pos (by omega)]
      simp
    · exact hk1
    · show kk ≤ klast - 1
      omega
  | succ n ih =>
    intro cstart ks hks hrange kk hk1 hk2 hnot
    rw [List.range'_succ]
    by_cases hs : splitCol c cstart
    · simp only [scanChunk, hs, if_true]
      by_cases hlt : kk < cstart
      · -- covered by the flushed coarse task [ks, cstart-1]
        refine ⟨GB_create_coarse_task c.Bflops c.cvlen c.method ks (cstart - 1),
          ?_, rfl, hk1, by show kk ≤ cstart - 1; omega⟩
        simp only [flushCoarse]
        rw [if_pos (by omega)]
        simp
      · -- kk > cstart (kk = cstart would contradict hnot), use the recursion
        have hkk : cstart < kk := by
          rcases hnot with h | h
          · omega
          · rcases Nat.lt_or_ge cstart kk with h2 | h2
            · exact h2
            · exact absurd hs (by have : kk = cstart := by omega
                                  rw [← this]; exact h)
        obtain ⟨t, htmem, htprop⟩ := ih (cstart + 1) (cstart + 1)
          le_rfl (by omega) kk (by omega) hk2 (by
            rcases hnot with h | h
            · omega
            · exact Or.inr h)
        exact ⟨t, by simp [htmem], htprop⟩
    · simp only [scanChunk, hs, if_false]
      exact ih (cstart + 1) ks (by omega) (by omega) kk hk1 hk2 (by
        rcases hnot with h | h
        · rcases Nat.lt_or_ge kk cstart with h2 | h2
          · exact Or.inl (by omega)
          · have : kk = cstart := by omega
            rw [this]
            exact Or.inr hs
        · exact Or.inr h)

theorem scanChunk_coarse_sound (c : ChunkCtx) (klast : ℕ) :
    ∀ (n cstart ks : ℕ), ks ≤ cstart → cstart + n = klast →
    (∀ j, ks ≤ j → j < cstart → ¬ splitCol c j) →
    ∀ t ∈ scanChunk c klast ks (List.range' cstart n), t.vector = none →
      ks ≤ t.start ∧ t.start ≤ t.end_ ∧ t.end_ < klast ∧
      t = GB_create_coarse_task c.Bflops c.cvlen c.method t.start t.end_ ∧
      ∀ kk, t.start ≤ kk → kk ≤ t.end_ → ¬ splitCol c kk := by
  intro n
  induction n with
  | zero =>
    intro cstart ks hks hrange hinv t htmem _
    simp only [scanChunk, flushCoarse] at htmem
    by_cases hlt : ks < klast
    · rw [if_pos hlt] at htmem
      simp only [List.mem_singleton] at htmem
      subst htmem
      refine ⟨le_rfl, by show ks ≤ klast - 1; omega, by show klast - 1 < klast; omega,
        rfl, ?_⟩
      intro kk h1 h2
      exact hinv kk h1 (by simp only [GB_create_coarse_task] at h2; omega)
    · rw [if_neg hlt] at htmem
      simp at htmem
  | succ n ih =>
    intro cstart ks hks hrange hinv t htmem htvec
    rw [List.range'_succ] at htmem
    by_cases hs : splitCol c cstart
    · simp only [scanChunk, hs, if_true, List.mem_append] at htmem
      rcases htmem with (hm | hm) | hm
      · -- t is the flushed coarse task over [ks, cstart-1]
        simp only [flushCoarse] at hm
        by_cases hlt : ks < cstart
        · rw [if_pos hlt] at hm
          simp only [List.mem_singleton] at hm
          subst hm
          refine ⟨le_rfl, by show ks ≤ cstart - 1; omega,
            by show cstart - 1 < klast; omega, rfl, ?_⟩
          intro kk h1 h2
          exact hinv kk h1 (by simp only [GB_create_coarse_task] at h2; omega)
        · rw [if_neg hlt] at hm
          simp at hm
      · exact absurd htvec (by simp [fineTeam_vector c cstart t hm])
      · obtain ⟨h1, h2⟩ := And.intro (ih (cstart + 1) (cstart + 1) le_rfl (by omega)
          (fun j hj1 hj2 => by omega) t hm htvec) True.intro
        exact ⟨by omega, h1.2.1, h1.2.2.1, h1.2.2.2.1, h1.2.2.2.2⟩
    · simp only [scanChunk, hs, if_false] at htmem
      exact ih (cstart + 1) ks (by omega) (by omega) (fun j hj1 hj2 => by
        rcases Nat.lt_or_ge j cstart with h2 | h2
        · exact hinv j hj1 h2
        · have : j = cstart := by omega
          rw [this]
          exact hs) t htmem htvec

theorem scanChunk_mem (c : ChunkCtx) (klast : ℕ) :
    ∀ (n cstart ks : ℕ),
    ∀ t ∈ scanChunk c klast ks (List.range' cstart n),
      (t.vector = none ∧
        t = GB_create_coarse_task c.Bflops c.cvlen c.method t.start t.end_) ∨
      (∃ kk, splitCol c kk ∧ t ∈ fineTeam c kk) := by
  intro n
  induction n with
  | zero =>
    intro cstart ks t htmem
    simp only [scanChunk, flushCoarse] at htmem
    by_cases hlt : ks < klast
    · rw [if_pos hlt] at htmem
      simp only [List.mem_singleton] at htmem
      subst htmem
      exact Or.inl ⟨rfl, rfl⟩
    · rw [if_neg hlt] at htmem
      simp at htmem
  | succ n ih =>
    intro cstart ks t htmem
    rw [List.range'_succ] at htmem
    by_cases hs : splitCol c cstart
    · simp only [scanChunk, hs, if_true, List.mem_append] at htmem
      rcases htmem with (hm | hm) | hm
      · simp only [flushCoarse] at hm
        by_cases hlt : ks < cstart
        · rw [if_pos hlt] at hm
          simp only [List.mem_singleton] at hm
          subst hm
          exact Or.inl ⟨rfl, rfl⟩
        · rw [if_neg hlt] at hm
          simp at hm
      · exact Or.inr ⟨cstart, hs, hm⟩
      · exact ih (cstart + 1) (cstart + 1) t hm
    · simp only [scanChunk, hs, if_false] at htmem
      exact ih (cstart + 1) ks t htmem

theorem foldl_max_init_le {f : ℕ → ℕ} :
    ∀ (l : List ℕ) (a : ℕ), a ≤ l.foldl (fun acc kk => max acc (f kk)) a := by
  intro l
  induction l with
  | nil => intro a; exact le_rfl
  | cons x xs ih =>
    intro a
    calc a ≤ max a (f x) := le_max_left a (f x)
      _ ≤ xs.foldl (fun acc kk => max acc (f kk)) (max a (f x)) := ih _

theorem one_le_coarseFlmax (Bflops : ℕ → ℕ) (kfirst klast : ℕ) :
    1 ≤ coarseFlmax Bflops kfirst klast :=
  foldl_max_init_le _ 1

theorem splitCol_one_le_jflops (c : ChunkCtx) (kk : ℕ) (h : splitCol c kk) :
    1 ≤ jflopsOf c kk := by
  obtain ⟨h1, _⟩ := h
  unfold gtCostly at h1
  by_contra hc
  have : jflopsOf c kk = 0 := by omega
  rw [this] at h1
  omega

theorem hash_table_size_cases (flmax cvlen : ℕ) (m : DescValue) :
    (useGustavsonCond flmax cvlen m → GB_hash_table_size flmax cvlen m = cvlen) ∧
    (¬ useGustavsonCond flmax cvlen m →
      GB_hash_table_size flmax cvlen m = 2 * strictPow2Gt flmax) := by
  constructor <;>
    · intro hcond
      cases m <;>
        simp_all [GB_hash_table_size, useGustavsonCond, hash_size_as_strictPow2]

theorem hash_table_size_bounds (flmax cvlen : ℕ) (m : DescValue) (h1 : 1 ≤ flmax) :
    GB_hash_table_size flmax cvlen m = cvlen ∨
    ((∃ k : ℕ, GB_hash_table_size flmax cvlen m = 2 ^ k) ∧
      GB_hash_table_size flmax cvlen m < cvlen ∧
      2 * nextPow2 flmax ≤ GB_hash_table_size flmax cvlen m ∧
      2 * flmax ≤ GB_hash_table_size flmax cvlen m) := by
  by_cases hcond : useGustavsonCond flmax cvlen m
  · exact Or.inl ((hash_table_size_cases flmax cvlen m).1 hcond)
  · right
    have heq := (hash_table_size_cases flmax cvlen m).2 hcond
    obtain ⟨hgt, _⟩ := strictPow2Gt_spec flmax h1
    obtain ⟨_, hnp⟩ := nextPow2_le_strictPow2Gt flmax h1
    refine ⟨⟨floorLog2 flmax + 2, by rw [heq, ← hash_size_as_strictPow2]⟩, ?_, ?_, ?_⟩
    · -- the Hash method was kept, so hash_size < cvlen
      rw [heq]
      unfold useGustavsonCond at hcond
      push_neg at hcond
      cases m with
      | GxB_AxB_GUSTAVSON => exact absurd rfl hcond.1
      | GxB_AxB_HASH =>
        have := hcond.2.1 rfl
        omega
      | GxB_DEFAULT =>
        have := hcond.2.2 (by intro h; cases h) (by intro h; cases h)
        have hd : cvlen / 16 ≤ cvlen := Nat.div_le_self cvlen 16
        omega
      | GxB_AxB_SAXPY =>
        have := hcond.2.2 (by intro h; cases h) (by intro h; cases h)
        have hd : cvlen / 16 ≤ cvlen := Nat.div_le_self cvlen 16
        omega
      | GxB_AxB_DOT =>
        have := hcond.2.2 (by intro h; cases h) (by intro h; cases h)
        have hd : cvlen / 16 ≤ cvlen := Nat.div_le_self cvlen 16
        omega
    · rw [heq]
      omega
    · rw [heq]
      omega

/-- C4: the per-chunk partitioner satisfies its specification: decomposition
happens iff the chunk's flops exceed `2 × 1.2 × target_task_size`; inside a
decomposed chunk a column is split into `ceil(column_flops/target_fine_size)`
fine tasks iff its flops exceed `1.2 × target_task_size` and it has more than
one entry in B, with ranges balanced by the per-entry flop sub-partition; the
remaining columns are covered by coarse tasks of unsplit columns only; a chunk
squeezed to zero columns yields no task. -/
theorem claim_C4 (c : ChunkCtx) (kfirst klast : ℕ) (hkl : kfirst ≤ klast) :
    chunkTasksSpec c kfirst klast := by
  refine ⟨fun h0 => ?_, fun h0 hno => ?_, fun h0 hyes => ?_⟩
  · unfold chunkTasks
    rw [if_pos h0]
  · unfold chunkTasks
    rw [if_neg (by omega), if_neg hno]
  · have hopen : chunkTasks c kfirst klast =
        scanChunk c klast kfirst (List.range' kfirst (klast - kfirst)) := by
      unfold chunkTasks
      rw [if_neg (by omega), if_pos hyes]
    refine ⟨fun j => ?_, fun j hsj => ?_, fun kk h1 h2 h3 => ?_, fun t ht hv => ?_⟩
    · rw [hopen, scanChunk_filter_fine c klast j (klast - kfirst) kfirst kfirst]
      by_cases hin : kfirst ≤ j ∧ j < kfirst + (klast - kfirst) ∧ splitCol c j
      · rw [if_pos hin, if_pos ⟨hin.1, by omega, hin.2.2⟩]
      · rw [if_neg hin, if_neg (fun hcon => hin ⟨hcon.1, by omega, hcon.2.2⟩)]
    · refine ⟨by simp [fineTeam, teamSizeOf], ?_⟩
      intro t ht
      simp only [fineTeam, List.mem_map, List.mem_range] at ht
      obtain ⟨fid, hfid, rfl⟩ := ht
      exact ⟨fid, hfid, rfl, rfl, rfl, rfl⟩
    · rw [hopen]
      exact scanChunk_coarse_cover c klast (klast - kfirst) kfirst kfirst
        le_rfl (by omega) kk h1 h2 (Or.inr h3)
    · rw [hopen] at ht
      have := scanChunk_coarse_sound c klast (klast - kfirst) kfirst kfirst
        le_rfl (by omega) (fun j hj1 hj2 => by omega) t ht hv
      exact ⟨this.1, this.2.1, this.2.2.1, this.2.2.2.2⟩

/-- C4 witness: the partitioner specification holds at the concrete inputs. -/
theorem claim_C4_witness : 0 ≤ 2 ∧ chunkTasksSpec witnessCtx 0 2 :=
  ⟨by decide, claim_C4 witnessCtx 0 2 (by decide)⟩

/-- C5: every task descriptor produced by the per-chunk partitioner has
`hsize` either exactly `cvlen`, or a power of two strictly less than `cvlen`
that is at least twice the smallest power of two ≥ the task's flop bound, so a
Hash-method table's occupancy never exceeds 50%. -/
theorem claim_C5 (c : ChunkCtx) (kfirst klast : ℕ) :
    ∀ t ∈ chunkTasks c kfirst klast, taskHsizeSpec c t := by
  intro t ht
  unfold chunkTasks at ht
  by_cases h0 : klast - kfirst = 0
  · rw [if_pos h0] at ht
    simp at ht
  · rw [if_neg h0] at ht
    by_cases hc : gtTwiceCostly (c.Bflops klast - c.Bflops kfirst) c.tts
    · rw [if_pos hc] at ht
      have hmem := scanChunk_mem c klast (klast - kfirst) kfirst kfirst t ht
      rcases hmem with ⟨hvec, heq⟩ | ⟨kk, hsplit, hfine⟩
      · unfold taskHsizeSpec taskVecBound
        rw [hvec, heq]
        exact hash_table_size_bounds _ c.cvlen c.method
          (one_le_coarseFlmax c.Bflops t.start t.end_)
      · simp only [fineTeam, List.mem_map, List.mem_range] at hfine
        obtain ⟨fid, hfid, rfl⟩ := hfine
        unfold taskHsizeSpec taskVecBound
        exact hash_table_size_bounds _ c.cvlen c.method
          (splitCol_one_le_jflops c kk hsplit)
    · rw [if_neg hc] at ht
      simp only [List.mem_singleton] at ht
      subst ht
      unfold taskHsizeSpec taskVecBound GB_create_coarse_task
      exact hash_table_size_bounds _ c.cvlen c.method
        (one_le_coarseFlmax c.Bflops kfirst (klast - 1))

/-- C5 witness: the invariant holds for the first task produced at the
concrete inputs (a fine hash task of the costly column 1). -/
theorem claim_C5_witness :
    (chunkTasks witnessCtx 0 2).length = 6 ∧
    taskHsizeSpec witnessCtx
      ((chunkTasks witnessCtx 0 2).getD 0
        { start := 0, end_ := 0, vector := none, hsize := 0, flops := 0,
          team_size := 0 }) :=
  ⟨by decide, claim_C5 witnessCtx 0 2 _ (by decide)⟩

/-- C9: the argument of the base-2 logarithm in GB_hash_table_size is at least
1 at every call site of GB_AxB_saxpy3: the coarse-task flop maximum is clamped
to at least 1 (the per-thread accumulators of GB_create_coarse_task start at
1), and the column flop count passed for a fine-task team is at least 1
because a column is only split when its flops exceed
`GB_COSTLY * target_task_size ≥ 0`. -/
theorem claim_C9 :
    (∀ (Bflops : ℕ → ℕ) (kfirst klast : ℕ), 1 ≤ coarseFlmax Bflops kfirst klast) ∧
    (∀ (c : ChunkCtx) (kk : ℕ), splitCol c kk → 1 ≤ jflopsOf c kk) :=
  ⟨fun Bflops kfirst klast => one_le_coarseFlmax Bflops kfirst klast,
   fun c kk h => splitCol_one_le_jflops c kk h⟩

/-- C9 witness: the fine-task flop bound is at least 1 at the concrete
inputs. -/
theorem claim_C9_witness : splitCol witnessCtx 1 ∧ 1 ≤ jflopsOf witnessCtx 1 :=
  ⟨by decide, claim_C9.2 witnessCtx 1 (by decide)⟩

/-- C3 counterexample: with M present and fully dense (packed), hint
GxB_AxB_HASH, total_flops = 100, Mwork = 100, cvlen = cvdim = 10, the
claim's dense case applies (`axbflops = 0 < Mwork * 0.10` for either reading
of Mwork) and predicts the mask is used in place; but the code's dense branch
is gated on the hint being default or saxpy, so the sparse ALPHA test fires
(`0 < 100 * 0.01`) and the mask is discarded instead. -/
theorem claim_C3_counterexample :
    (maskDecision true true false DescValue.GxB_AxB_HASH 100 100 10 10).M_kept
        = false ∧
    (maskDecision true true false DescValue.GxB_AxB_HASH 100 100 10 10).M_dense_in_place
        = false ∧
    (maskDecision true true false DescValue.GxB_AxB_HASH 100 100 10 10).apply_mask
        = false ∧
    (10 * ((100 : ℤ) - (100 : ℤ)) < ((10 * 10 : ℕ) : ℤ)) ∧
    (10 * ((100 : ℤ) - (100 : ℤ)) < ((100 : ℕ) : ℤ)) := by decide

/-- C3 (amended): when a mask is given, the dense in-place path (Hash forced,
no mask-scan cost, mask_applied = true) is taken iff M is fully dense, the
method hint is default or saxpy, and `axbflops < (cvlen*cvdim) * 0.10`;
otherwise, if `axbflops < Mwork * 0.01` the mask is discarded (M dropped,
complement cleared, flop analysis redone without the mask, mask_applied =
false); otherwise the mask is used normally (for a dense M on the default or
saxpy hint, with Gustavson forced and the mask-scan cost added to Bflops). -/
theorem claim_C3_amended (M_present M_packed Mask_comp : Bool)
    (method : DescValue) (total_flops Mwork cvlen cvdim : ℕ) :
    maskDecisionSpec M_present M_packed Mask_comp method total_flops Mwork
      cvlen cvdim := by
  unfold maskDecisionSpec maskDecision
  refine ⟨?_, ?_, ?_, ?_, ?_⟩
  · intro h1 h2
    rw [if_pos h1, if_pos h2]
  · intro h1 h2
    rw [if_pos h1, if_neg h2]
  · intro h1 h2 h3
    rw [if_neg h1, if_pos ⟨h2, h3⟩]
  · intro h1 h2 h3
    rw [if_neg h1, if_neg (fun hcon => h3 hcon.2), h2]
  · intro h1
    rw [if_neg (fun hcon => by rw [h1] at hcon; exact Bool.false_ne_true hcon.1),
      if_neg (fun hcon => by rw [h1] at hcon; exact Bool.false_ne_true hcon.1),
      h1]

/-- C3 witness: the amended specification applied at the counterexample's
inputs and at a dense default-hint instance that takes the in-place path. -/
theorem claim_C3_amended_witness :
    maskDecisionSpec true true false DescValue.GxB_AxB_HASH 100 100 10 10 ∧
    (maskDecision true true false DescValue.GxB_DEFAULT 100 100 10 10).M_dense_in_place
      = true :=
  ⟨claim_C3_amended true true false DescValue.GxB_AxB_HASH 100 100 10 10,
   by rw [(claim_C3_amended true true false DescValue.GxB_DEFAULT 100 100 10
       10).1 ⟨rfl, rfl, Or.inl rfl⟩ (by decide)]⟩

theorem lookup_range'_filterMap {α : Type} (i : ℕ) (f : ℕ → Option α) :
    ∀ (n s : ℕ),
    List.lookup i ((List.range' s n).filterMap fun t => (f t).map fun a => (t, a)) =
      if s ≤ i ∧ i < s + n then f i else none := by
  intro n
  induction n with
  | zero => intro s; rw [if_neg (by omega)]; rfl
  | succ n ih =>
    intro s
    rw [List.range'_succ]
    by_cases his : i = s
    · subst his
      rw [if_pos (by omega)]
      cases hfs : f i with
      | none =>
        simp only [List.filterMap_cons, hfs, Option.map_none']
        rw [ih (i + 1), if_neg (by omega)]
      | some a =>
        simp only [List.filterMap_cons, hfs, Option.map_some']
        simp [List.lookup]
    · cases hfs : f s with
      | none =>
        simp only [List.filterMap_cons, hfs, Option.map_none']
        rw [ih (s + 1)]
        by_cases hin : s ≤ i ∧ i < s + (n + 1)
        · rw [if_pos hin, if_pos (by omega)]
        · rw [if_neg hin, if_neg (by omega)]
      | some a =>
        simp only [List.filterMap_cons, hfs, Option.map_some']
        have hbeq : (i == s) = false := by simp [his]
        simp only [List.lookup, hbeq]
        rw [ih (s + 1)]
        by_cases hin : s ≤ i ∧ i < s + (n + 1)
        · rw [if_pos (by omega), if_pos hin]
        · rw [if_neg (by omega), if_neg hin]

theorem lookup_colList {α : Type} (m : ℕ) (f : ℕ → Option α) (i : ℕ) :
    List.lookup i (colList m f) = if i < m then f i else none := by
  unfold colList
  rw [List.range_eq_range', lookup_range'_filterMap i f m 0]
  by_cases h : i < m
  · rw [if_pos (by omega), if_pos h]
  · rw [if_neg (by omega), if_neg h]

theorem pairwise_keys_colList {α : Type} (m : ℕ) (f : ℕ → Option α) :
    List.Pairwise (fun p q : ℕ × α => p.1 < q.1) (colList m f) := by
  unfold colList
  rw [List.pairwise_filterMap]
  refine List.Pairwise.imp ?_ (List.pairwise_lt_range m)
  intro a b hab p hp q hq
  cases hfa : f a with
  | none => rw [hfa] at hp; simp at hp
  | some va =>
    cases hfb : f b with
    | none => rw [hfb] at hq; simp at hq
    | some vb =>
      rw [hfa] at hp
      rw [hfb] at hq
      simp only [Option.map_some', Option.mem_def, Option.some.injEq] at hp hq
      rw [← hp, ← hq]
      exact hab

theorem lookup_eq_none_of_nokey {α : Type} (i : ℕ) :
    ∀ (l : List (ℕ × α)), (∀ p ∈ l, p.1 ≠ i) → List.lookup i l = none := by
  intro l
  induction l with
  | nil => intro _; rfl
  | cons p rest ih =>
    intro h
    have hne : (i == p.1) = false := by
      simp only [beq_eq_false_iff_ne, ne_eq]
      exact fun hcon => (h p (List.mem_cons_self p rest)) (by
        rw [hcon])
    obtain ⟨k, a⟩ := p
    simp only [List.lookup, hne]
    exact ih (fun q hq => h q (List.mem_cons_of_mem _ hq))

theorem scatterOne_point {α : Type} (add mult : α → α → α) (allow : ℕ → Bool)
    (b : α) :
    ∀ (l : List (ℕ × α)) (acc : ℕ → Option α) (i : ℕ),
    List.Pairwise (fun p q : ℕ × α => p.1 ≠ q.1) l →
    scatterOne add mult allow l b acc i =
      match List.lookup i l with
      | none => acc i
      | some a => if allow i then combine add (acc i) (mult a b) else acc i := by
  intro l
  induction l with
  | nil => intro acc i _; rfl
  | cons p rest ih =>
    intro acc i hpw
    obtain ⟨k, a⟩ := p
    have hpw2 := List.pairwise_cons.mp hpw
    simp only [scatterOne, List.foldl_cons]
    have hstep := ih (if allow k = true then hxUpdate add acc k (mult a b) else acc)
      i hpw2.2
    simp only [scatterOne] at hstep
    rw [hstep]
    by_cases hik : i = k
    · have hlk : List.lookup i rest = none := by
        refine lookup_eq_none_of_nokey i rest (fun q hq hcon => ?_)
        exact hpw2.1 q hq (by rw [hcon, hik])
      rw [hlk]
      have hbeq : (i == k) = true := by simp [hik]
      simp only [List.lookup, hbeq]
      by_cases hal : allow i
      · have halk : allow k = true := by rw [← hik]; exact hal
        rw [if_pos halk, if_pos hal]
        unfold hxUpdate combine
        rw [if_pos hik, ← hik]
        cases acc i <;> rfl
      · have halk : ¬ allow k = true := by rw [← hik]; exact hal
        rw [if_neg halk, if_neg hal]
    · have hacc : (if allow k = true then hxUpdate add acc k (mult a b) else acc) i
          = acc i := by
        by_cases hal : allow k
        · rw [if_pos hal]
          unfold hxUpdate
          rw [if_neg hik]
        · rw [if_neg hal]
      have hbeq : (i == k) = false := by simp [hik]
      simp only [List.lookup, hbeq]
      cases List.lookup i rest <;> simp [hacc]

theorem scatterCol_point {α : Type} (add mult : α → α → α) (allow : ℕ → Bool)
    (m : ℕ) (A : ℕ → ℕ → Option α) :
    ∀ (Bj : List (ℕ × α)) (acc0 : ℕ → Option α) (i : ℕ),
    (Bj.foldl
      (fun ac p => scatterOne add mult allow (colList m fun r => A r p.1) p.2 ac)
      acc0) i =
    if allow i then
      (Bj.filterMap fun p =>
        (List.lookup i (colList m fun r => A r p.1)).map fun a => mult a p.2).foldl
        (combine add) (acc0 i)
    else acc0 i := by
  intro Bj
  induction Bj with
  | nil =>
    intro acc0 i
    by_cases hal : allow i <;> simp [hal]
  | cons p rest ih =>
    intro acc0 i
    obtain ⟨k, b⟩ := p
    simp only [List.foldl_cons, List.filterMap_cons]
    rw [ih]
    have hpoint := scatterOne_point add mult allow b (colList m fun r => A r k)
      acc0 i ((pairwise_keys_colList m _).imp (fun h => Nat.ne_of_lt h))
    cases hlk : List.lookup i (colList m fun r => A r k) with
    | none =>
      rw [hlk] at hpoint
      have hpoint2 : scatterOne add mult allow (colList m fun r => A r k) b acc0 i
          = acc0 i := hpoint
      simp only [Option.map_none']
      rw [hpoint2]
    | some a =>
      rw [hlk] at hpoint
      have hpoint2 : scatterOne add mult allow (colList m fun r => A r k) b acc0 i
          = if allow i = true then combine add (acc0 i) (mult a b) else acc0 i :=
        hpoint
      simp only [Option.map_some']
      rw [hpoint2]
      by_cases hal : allow i
      · rw [if_pos hal, if_pos hal, if_pos hal, List.foldl_cons]
      · rw [if_neg hal, if_neg hal, if_neg hal]

theorem contribs_of_colList {α : Type} (mult : α → α → α) (m kdim : ℕ)
    (A B : ℕ → ℕ → Option α) (hA : ∀ i k, m ≤ i → A i k = none) (i j : ℕ) :
    ((colList kdim fun k => B k j).filterMap fun p =>
      (List.lookup i (colList m fun r => A r p.1)).map fun a => mult a p.2) =
    naiveContribs mult kdim A B i j := by
  have hlk : ∀ k, List.lookup i (colList m fun r => A r k) = A i k := by
    intro k
    rw [lookup_colList]
    by_cases h : i < m
    · rw [if_pos h]
    · rw [if_neg h, hA i k (by omega)]
  have hcol : colList kdim (fun k => B k j) =
      (List.range kdim).filterMap fun t => (B t j).map fun a => (t, a) := rfl
  unfold naiveContribs
  rw [hcol, List.filterMap_filterMap]
  refine List.filterMap_congr ?_
  intro t _
  cases hbt : B t j with
  | none => simp [hbt]
  | some b =>
    cases hat : A i t with
    | none => simp [hbt, hat, hlk t]
    | some a => simp [hbt, hat, hlk t]

theorem scatter_entry_eq_naive {α : Type} (add mult : α → α → α) (m kdim : ℕ)
    (A B : ℕ → ℕ → Option α) (hA : ∀ i k, m ≤ i → A i k = none) (i j : ℕ) :
    scatterCol add mult (fun _ => true) m A (colList kdim fun k => B k j) i =
      naiveEntry add mult kdim A B i j := by
  unfold scatterCol naiveEntry
  rw [scatterCol_point, if_pos rfl, contribs_of_colList mult m kdim A B hA i j]

theorem combine_right_comm {α : Type} (add : α → α → α)
    (hassoc : ∀ x y z, add (add x y) z = add x (add y z))
    (hcomm : ∀ x y, add x y = add y x) (o : Option α) (c1 c2 : α) :
    combine add (combine add o c1) c2 = combine add (combine add o c2) c1 := by
  cases o with
  | none => show some (add c1 c2) = some (add c2 c1); rw [hcomm]
  | some w =>
    show some (add (add w c1) c2) = some (add (add w c2) c1)
    rw [hassoc, hassoc, hcomm c1 c2]

theorem scatter_perm_eq_naive {α : Type} (add mult : α → α → α)
    (hassoc : ∀ x y z, add (add x y) z = add x (add y z))
    (hcomm : ∀ x y, add x y = add y x) (m kdim : ℕ) (A B : ℕ → ℕ → Option α)
    (hA : ∀ i k, m ≤ i → A i k = none) (j : ℕ) (Bj2 : List (ℕ × α))
    (hperm : Bj2.Perm (colList kdim fun k => B k j)) (i : ℕ) :
    scatterCol add mult (fun _ => true) m A Bj2 i =
      naiveEntry add mult kdim A B i j := by
  unfold scatterCol
  rw [scatterCol_point, if_pos rfl]
  haveI : RightCommutative (combine add) :=
    ⟨fun o c1 c2 => combine_right_comm add hassoc hcomm o c1 c2⟩
  rw [List.Perm.foldl_eq (List.Perm.filterMap _ hperm) none]
  unfold naiveEntry
  rw [contribs_of_colList mult m kdim A B hA i j]

theorem scatter_masked_eq_naive {α : Type} (add mult : α → α → α)
    (allow : ℕ → Bool) (m kdim : ℕ) (A B : ℕ → ℕ → Option α)
    (hA : ∀ i k, m ≤ i → A i k = none) (i j : ℕ) :
    scatterCol add mult allow m A (colList kdim fun k => B k j) i =
      if allow i then naiveEntry add mult kdim A B i j else none := by
  unfold scatterCol
  rw [scatterCol_point]
  by_cases hal : allow i
  · rw [if_pos hal, if_pos hal]
    unfold naiveEntry
    rw [contribs_of_colList mult m kdim A B hA i j]
  · rw [if_neg hal, if_neg hal]

/-- C1: for every pair of sparse matrices and every semiring whose additive
monoid is associative and commutative, the column lists constructed by the
modelled saxpy3 kernels have entry (i,j) equal to the monoid fold of
`mult (A i t) (B t j)` over exactly those `t` where both entries are present,
matching the naive triple-loop reference; the accumulated value is the same
for every traversal order of the entries of `B(:,j)` (the fine-task teams'
unordered updates), and with a mask applied the entry is kept exactly at
allowed positions; in particular, for the concrete diagonal scenario under
(plus, times) the result is {(0,0):10, (1,1):18, (2,2):28} with nnz = 3. -/
theorem claim_C1 :
    (∀ (α : Type) (add mult : α → α → α),
      (∀ x y z, add (add x y) z = add x (add y z)) →
      (∀ x y, add x y = add y x) →
      ∀ (m kdim : ℕ) (A B : ℕ → ℕ → Option α),
      (∀ i k, m ≤ i → A i k = none) →
      (∀ i j, List.lookup i (saxpyColumn add mult m kdim A B j) =
        if i < m then naiveEntry add mult kdim A B i j else none) ∧
      (∀ (j : ℕ) (Bj2 : List (ℕ × α)), Bj2.Perm (colList kdim fun k => B k j) →
        ∀ i, scatterCol add mult (fun _ => true) m A Bj2 i =
          naiveEntry add mult kdim A B i j) ∧
      (∀ (allow : ℕ → Bool) (i j : ℕ),
        scatterCol add mult allow m A (colList kdim fun k => B k j) i =
          if allow i then naiveEntry add mult kdim A B i j else none)) ∧
    (saxpyMat Nat.add Nat.mul 3 3 3 exampleA exampleB =
        [[(0, 10)], [(1, 18)], [(2, 28)]] ∧
      nnzOf (saxpyMat Nat.add Nat.mul 3 3 3 exampleA exampleB) = 3) := by
  constructor
  · intro α add mult hassoc hcomm m kdim A B hA
    refine ⟨?_, ?_, ?_⟩
    · intro i j
      unfold saxpyColumn gatherCol
      rw [lookup_colList]
      by_cases h : i < m
      · rw [if_pos h, if_pos h, scatter_entry_eq_naive add mult m kdim A B hA i j]
      · rw [if_neg h, if_neg h]
    · intro j Bj2 hperm i
      exact scatter_perm_eq_naive add mult hassoc hcomm m kdim A B hA j Bj2 hperm i
    · intro allow i j
      exact scatter_masked_eq_naive add mult allow m kdim A B hA i j
  · constructor
    · decide
    · decide

/-- C1 witness: the general statement applied to the concrete diagonal
scenario over (plus, times) on ℕ. -/
theorem claim_C1_witness :
    List.lookup 1 (saxpyColumn Nat.add Nat.mul 3 3 exampleA exampleB 1) =
      if 1 < 3 then naiveEntry Nat.add Nat.mul 3 exampleA exampleB 1 1
      else none :=
  (claim_C1.1 ℕ Nat.add Nat.mul (fun x y z => Nat.add_assoc x y z)
    (fun x y => Nat.add_comm x y) 3 3 exampleA exampleB
    (fun i k hik => by
      unfold exampleA
      rw [if_neg (fun hcon => by omega)])).1 1 1

theorem le_of_mem_scanl {α : Type} :
    ∀ (l : List (List (ℕ × α))) (a b : ℕ),
    b ∈ List.scanl (fun s col => s + col.length) a l → a ≤ b := by
  intro l
  induction l with
  | nil =>
    intro a b hb
    simp [List.scanl] at hb
    omega
  | cons x xs ih =>
    intro a b hb
    rw [List.scanl_cons, List.singleton_append, List.mem_cons] at hb
    rcases hb with h | h
    · omega
    · have := ih (a + x.length) b h
      omega

theorem sorted_scanl_len {α : Type} :
    ∀ (l : List (List (ℕ × α))) (a : ℕ),
    List.Sorted (· ≤ ·) (List.scanl (fun s col => s + col.length) a l) := by
  intro l
  induction l with
  | nil => intro a; simp [List.scanl]
  | cons x xs ih =>
    intro a
    rw [List.scanl_cons, List.singleton_append]
    refine List.sorted_cons.mpr ⟨fun b hb => ?_, ih (a + x.length)⟩
    have := le_of_mem_scanl xs (a + x.length) b hb
    omega

theorem scanl_len_getD_zero {α : Type} (l : List (List (ℕ × α))) (a : ℕ) :
    (List.scanl (fun s col => s + col.length) a l).getD 0 0 = a := by
  cases l <;> simp [List.scanl]

theorem scanl_len_rec {α : Type} :
    ∀ (l : List (List (ℕ × α))) (a j : ℕ), j < l.length →
    (List.scanl (fun s col => s + col.length) a l).getD (j + 1) 0 =
      (List.scanl (fun s col => s + col.length) a l).getD j 0 +
        (l.getD j []).length := by
  intro l
  induction l with
  | nil => intro a j hj; simp at hj
  | cons x xs ih =>
    intro a j hj
    rw [List.scanl_cons, List.singleton_append]
    cases j with
    | zero =>
      simp only [List.getD_cons_succ, List.getD_cons_zero]
      rw [scanl_len_getD_zero]
    | succ j =>
      simp only [List.getD_cons_succ]
      exact ih (a + x.length) j (by simp at hj; omega)

theorem pairwise_lt_of_sorted_nodup {α : Type} :
    ∀ (l : List (ℕ × α)), List.Pairwise (fun p q : ℕ × α => p.1 ≤ q.1) l →
    List.Pairwise (fun p q : ℕ × α => p.1 ≠ q.1) l →
    List.Pairwise (fun p q : ℕ × α => p.1 < q.1) l := by
  intro l hle hne
  exact (hle.and hne).imp (fun h => lt_of_le_of_ne h.1 h.2)

theorem saxpyColumn_pairwise {α : Type} (add mult : α → α → α) (m kdim : ℕ)
    (A B : ℕ → ℕ → Option α) (j : ℕ) :
    List.Pairwise (fun p q : ℕ × α => p.1 < q.1)
      (saxpyColumn add mult m kdim A B j) :=
  pairwise_keys_colList m _

/-- C6: the finalized output has valid cumulative column pointers (Cp is
monotone and each successive difference is the column's entry count) and every
column's entries in strictly ascending row-index order, whether the column was
computed by the Hash method (whose gather sorts the scrambled table contents)
or by Gustavson's method (already in order), and finalization preserves each
column's set of entries. -/
theorem claim_C6 (α : Type) (add mult : α → α → α) (m kdim n : ℕ)
    (A B : ℕ → ℕ → Option α) (useHash : ℕ → Bool) (perCols : ℕ → List (ℕ × α))
    (hperm : ∀ j, (perCols j).Perm (saxpyColumn add mult m kdim A B j))
    (hgus : ∀ j, useHash j = false →
      perCols j = saxpyColumn add mult m kdim A B j) :
    List.Sorted (· ≤ ·) (finalCp (finalizeColumns useHash perCols n)) ∧
    (∀ j, j < n →
      (finalCp (finalizeColumns useHash perCols n)).getD (j + 1) 0 =
        (finalCp (finalizeColumns useHash perCols n)).getD j 0 +
          ((finalizeColumns useHash perCols n).getD j []).length) ∧
    (∀ col ∈ finalizeColumns useHash perCols n,
      List.Pairwise (fun p q : ℕ × α => p.1 < q.1) col) ∧
    (∀ j, j < n → ((finalizeColumns useHash perCols n).getD j []).Perm
      (saxpyColumn add mult m kdim A B j)) := by
  haveI htot : IsTotal (ℕ × α) (fun p q => p.1 ≤ q.1) :=
    ⟨fun p q => Nat.le_total p.1 q.1⟩
  haveI htrans : IsTrans (ℕ × α) (fun p q => p.1 ≤ q.1) :=
    ⟨fun p q r h1 h2 => Nat.le_trans h1 h2⟩
  have hfin : ∀ j, j < n → (finalizeColumns useHash perCols n).getD j [] =
      if useHash j then hashGather (perCols j) else perCols j := by
    intro j hj
    unfold finalizeColumns
    rw [List.getD_eq_getElem?_getD, List.getElem?_map,
      List.getElem?_range hj]
    rfl
  have hcolperm : ∀ j, (if useHash j then hashGather (perCols j) else perCols j).Perm
      (saxpyColumn add mult m kdim A B j) := by
    intro j
    by_cases hu : useHash j
    · rw [if_pos hu]
      unfold hashGather
      exact (List.perm_insertionSort _ (perCols j)).trans (hperm j)
    · rw [if_neg hu]
      exact hperm j
  have hsortedcol : ∀ j, List.Pairwise (fun p q : ℕ × α => p.1 < q.1)
      (if useHash j then hashGather (perCols j) else perCols j) := by
    intro j
    by_cases hu : useHash j
    · rw [if_pos hu]
      unfold hashGather
      refine pairwise_lt_of_sorted_nodup _
        (List.sorted_insertionSort _ (perCols j)) ?_
      have h1 : List.Pairwise (fun p q : ℕ × α => p.1 ≠ q.1)
          (saxpyColumn add mult m kdim A B j) :=
        (saxpyColumn_pairwise add mult m kdim A B j).imp
          (fun h => Nat.ne_of_lt h)
      have h2 := ((List.perm_insertionSort
        (fun p q : ℕ × α => p.1 ≤ q.1) (perCols j)).trans (hperm j))
      exact (List.Perm.pairwise_iff (fun h => h.symm) h2).mpr h1
    · rw [if_neg hu, hgus j (by simpa using hu)]
      exact saxpyColumn_pairwise add mult m kdim A B j
  refine ⟨sorted_scanl_len _ 0, ?_, ?_, ?_⟩
  · intro j hj
    unfold finalCp
    exact scanl_len_rec _ 0 j (by simp [finalizeColumns, hj])
  · intro col hcol
    unfold finalizeColumns at hcol
    rw [List.mem_map] at hcol
    obtain ⟨j, _, rfl⟩ := hcol
    exact hsortedcol j
  · intro j hj
    rw [hfin j hj]
    exact hcolperm j

/-- C6 witness: at the concrete diagonal scenario with all columns stored
scrambled (reversed) and sorted by the Hash gather. -/
theorem claim_C6_witness :
    List.Sorted (· ≤ ·)
      (finalCp (finalizeColumns (fun _ => true)
        (fun j => (saxpyColumn Nat.add Nat.mul 3 3 exampleA exampleB j).reverse)
        3)) :=
  (claim_C6 ℕ Nat.add Nat.mul 3 3 3 exampleA exampleB (fun _ => true)
    (fun j => (saxpyColumn Nat.add Nat.mul 3 3 exampleA exampleB j).reverse)
    (fun _ => List.reverse_perm _)
    (fun _ h => nomatch h)).1

/-- C7: whenever the specialized kernel tier reports GrB_NO_VALUE (disabled or
not built in), the dispatch falls through to the generic fallback and the
resulting matrix is identical to the one the specialized kernel would have
produced (both compute `saxpyMat`); the status after dispatch is GrB_SUCCESS,
never GrB_NO_VALUE. -/
theorem claim_C7 (α : Type) (add mult : α → α → α) (m kdim n : ℕ)
    (A B : ℕ → ℕ → Option α) (builtin disabled : Bool) :
    saxpy3DispatchTail builtin disabled (saxpyMat add mult m kdim n A B) =
      (GrB_Info.GrB_SUCCESS, saxpyMat add mult m kdim n A B) ∧
    (saxpy3DispatchTail builtin disabled
      (saxpyMat add mult m kdim n A B)).1 ≠ GrB_Info.GrB_NO_VALUE := by
  cases builtin <;> cases disabled <;>
    exact ⟨rfl, fun h => nomatch h⟩

theorem freeAll_eq (m : SaxMem) : freeAll m = SaxMem.allFree := rfl

theorem saxpy3Run_not_success (o : AllocOracle)
    (h : (saxpy3Run o).1 ≠ GrB_Info.GrB_SUCCESS) :
    saxpy3Run o = (GrB_Info.GrB_OUT_OF_MEMORY, SaxMem.allFree) := by
  unfold saxpy3Run at *
  split_ifs at * <;> simp_all [freeAll_eq]

theorem saxpy3Run_success_inv (o : AllocOracle)
    (hs : (saxpy3Run o).1 = GrB_Info.GrB_SUCCESS) :
    allocsOk o ∧ kernelInfo o = GrB_Info.GrB_SUCCESS ∧ o.prune = true := by
  unfold saxpy3Run at hs
  split_ifs at hs with h1 h2 h3 h4 h5 h6 h7
  refine ⟨?_, by
    by_cases hk : kernelInfo o = GrB_Info.GrB_SUCCESS
    · exact hk
    · exact absurd hk h6, by
    cases hp : o.prune
    · exact absurd hp h7
    · rfl⟩
  unfold allocsOk
  refine ⟨?_, ?_, ?_, ?_, ?_, ?_, ?_, ?_, ?_⟩
  · cases hc : o.C_new
    · exact absurd hc h1
    · rfl
  · cases hc : o.flopcount
    · exact absurd hc h2
    · rfl
  · intro hm
    cases hc : o.pslice
    · exact absurd ⟨hm, hc⟩ h3
    · rfl
  · cases hc : o.TaskList
    · exact absurd (Or.inl hc) h4
    · rfl
  · cases hc : o.Coarse_Work
    · exact absurd (Or.inr (Or.inl hc)) h4
    · rfl
  · intro hf
    constructor
    · cases hc : o.Fine_slice
      · exact absurd (Or.inr (Or.inr ⟨hf, Or.inl hc⟩)) h4
      · rfl
    · cases hc : o.Bflops2
      · exact absurd (Or.inr (Or.inr ⟨hf, Or.inr hc⟩)) h4
      · rfl
  · intro hh
    cases hc : o.Hi
    · exact absurd (Or.inl ⟨hh, hc⟩) h5
    · rfl
  · intro hh
    cases hc : o.Hf
    · exact absurd (Or.inr (Or.inl ⟨hh, hc⟩)) h5
    · rfl
  · intro hh
    cases hc : o.Hx
    · exact absurd (Or.inr (Or.inr ⟨hh, hc⟩)) h5
    · rfl

/-- C8: if any allocation (the output header C, the tasks and partitioning
workspace, or the hash-table buffers) or out-of-memory-only subcall fails, the
call returns GrB_OUT_OF_MEMORY with every workspace block freed and the
partially built output matrix freed, `*Chandle == NULL`: the caller never
observes a partial result. -/
theorem claim_C8 (o : AllocOracle) (h : ¬ allocsOk o) :
    saxpy3Run o = (GrB_Info.GrB_OUT_OF_MEMORY, SaxMem.allFree) :=
  saxpy3Run_not_success o (fun hs => h (saxpy3Run_success_inv o hs).1)

/-- C8 witness: a failing TaskList allocation aborts with GrB_OUT_OF_MEMORY
and everything freed. -/
theorem claim_C8_witness :
    saxpy3Run
      { C_new := true, flopcount := true, pslice := true, TaskList := false,
        Coarse_Work := true, Fine_slice := true, Bflops2 := true, Hi := true,
        Hf := true, Hx := true, prune := true, builtin := true,
        specialized := GrB_Info.GrB_SUCCESS, generic := GrB_Info.GrB_SUCCESS,
        multi_initial := true, need_fine := true, need_Hi := true,
        need_Hf := true, need_Hx := true } =
      (GrB_Info.GrB_OUT_OF_MEMORY, SaxMem.allFree) :=
  claim_C8 _ (by decide)

/-- C10: GB_AxB_saxpy3 returns only GrB_SUCCESS or GrB_OUT_OF_MEMORY; in
particular any non-success, non-GrB_NO_VALUE status produced by the
specialized switch-factory kernel or by the generic fallback, whatever its
value, is normalized to GrB_OUT_OF_MEMORY with all workspace and the partial
C freed. -/
theorem claim_C10 :
    (∀ o : AllocOracle, (saxpy3Run o).1 = GrB_Info.GrB_SUCCESS ∨
      (saxpy3Run o).1 = GrB_Info.GrB_OUT_OF_MEMORY) ∧
    (∀ o : AllocOracle, allocsOk o → kernelInfo o ≠ GrB_Info.GrB_SUCCESS →
      saxpy3Run o = (GrB_Info.GrB_OUT_OF_MEMORY, SaxMem.allFree)) := by
  constructor
  · intro o
    by_cases h : (saxpy3Run o).1 = GrB_Info.GrB_SUCCESS
    · exact Or.inl h
    · exact Or.inr (by rw [saxpy3Run_not_success o h])
  · intro o _ hker
    exact saxpy3Run_not_success o
      (fun hs => hker (saxpy3Run_success_inv o hs).2.1)

/-- C10 witness: a GrB_PANIC from the specialized kernel is normalized to
GrB_OUT_OF_MEMORY with everything freed. -/
theorem claim_C10_witness :
    saxpy3Run
      { C_new := true, flopcount := true, pslice := true, TaskList := true,
        Coarse_Work := true, Fine_slice := true, Bflops2 := true, Hi := true,
        Hf := true, Hx := true, prune := true, builtin := true,
        specialized := GrB_Info.GrB_PANIC, generic := GrB_Info.GrB_SUCCESS,
        multi_initial := true, need_fine := true, need_Hi := true,
        need_Hf := true, need_Hx := true } =
      (GrB_Info.GrB_OUT_OF_MEMORY, SaxMem.allFree) :=
  claim_C10.2 _ (by decide) (by decide)

end GB
